import Mathlib

/-!
Shallow embedding of the retrieval core of the voicedoc agent
(`src/lib/firestore.ts`): the chunk data model, the document-registry
deduplication primitives, the client-side cosine-similarity scoring and the
`searchSimilarChunks` ranking pipeline, together with proofs of the spec's
testable properties.

Numbers are modelled over an arbitrary linear ordered field `R` (instantiated
at `ℝ` with `Real.sqrt` for the numerical claims and at `ℚ` for executable
witnesses), extended with an explicit NaN value to capture the JavaScript
behaviour of arithmetic on `undefined` array reads, which the similarity loop
performs whenever the candidate vector is shorter than the query vector.
-/

namespace VoiceDoc

/-- A JavaScript number as the retrieval core exercises them: an ordinary
value of the field `R`, or NaN.  NaN arises from arithmetic involving
`undefined` (an out-of-range array access) and absorbs every subsequent
arithmetic operation.  Infinities never arise on reachable paths, so they are
not modelled. -/
inductive JVal (R : Type) where
  | num : R → JVal R
  | nan : JVal R
deriving DecidableEq

variable {R : Type} [LinearOrderedField R]

/-- JS addition: NaN absorbs. -/
def jAdd : JVal R → JVal R → JVal R
  | .num a, .num b => .num (a + b)
  | _, _ => .nan

/-- JS multiplication: NaN absorbs. -/
def jMul : JVal R → JVal R → JVal R
  | .num a, .num b => .num (a * b)
  | _, _ => .nan

/-- JS division: NaN absorbs.  A zero denominator would yield an infinity in
JS, but every reachable division in the core divides by a product of square
roots of norms that the zero-guard has already ruled out. -/
def jDiv : JVal R → JVal R → JVal R
  | .num a, .num b => .num (a / b)
  | _, _ => .nan

/-- `Math.sqrt` lifted to `JVal`, parametrised by the square-root function of
the underlying field (`Real.sqrt` for the intended instantiation). -/
def jSqrt (sqrt : R → R) : JVal R → JVal R
  | .num a => .num (sqrt a)
  | .nan => .nan

/-- The JS strict comparison `x === 0`.  `NaN === 0` is `false`. -/
def jEqZero : JVal R → Bool
  | .num a => decide (a = 0)
  | .nan => false

/-- Total Boolean order on `JVal` used to model the sort comparator
`(a, b) => b.score - a.score`: descending comparison of scores.  On ordinary
numbers it is the field order.  A comparison involving NaN returns NaN in JS
and the engine's resulting order is unspecified; we model NaN as ordered below
every number, a deterministic refinement.  No claim settled below depends on
the relative position of NaN-scored entries. -/
def jleB : JVal R → JVal R → Bool
  | .nan, _ => true
  | .num _, .nan => false
  | .num a, .num b => decide (a ≤ b)

/-- Numeric comparison on `JVal` as a proposition: holds only between two
ordinary numbers in the field order.  Any comparison with NaN is false, as in
IEEE semantics. -/
def jNumLe : JVal R → JVal R → Prop
  | .num a, .num b => a ≤ b
  | _, _ => False

/-- Sum of squares of a vector (the `normA` / `normB` accumulator value when
no out-of-range read occurs). -/
def sumSq : List R → R
  | [] => 0
  | a :: as => a * a + sumSq as

/-- Dot product truncated to the shorter of the two vectors (the `dotProduct`
accumulator value when no out-of-range read occurs, i.e. when the first
vector is at most as long as the second). -/
def dotP : List R → List R → R
  | [], _ => 0
  | _, [] => 0
  | a :: as, b :: bs => a * b + dotP as bs

/-- The metadata stored with every chunk (`Chunk.metadata` in the source). -/
structure ChunkMetadata where
  filename : String
  persona : String
  pageNumber : Option Nat
deriving DecidableEq

/-- A stored document chunk (`Chunk` in the source): text, embedding vector
and scoping metadata. -/
structure Chunk (R : Type) where
  id : Option String
  text : String
  embedding : List R
  metadata : ChunkMetadata
deriving DecidableEq

/-- A document-registry record (`DocumentMetadata` in the source); `Date` is
modelled as a `Nat` timestamp. -/
structure DocumentMetadata where
  hash : String
  filename : String
  persona : String
  summary : Option String
  created_at : Option Nat
deriving DecidableEq

/-- `getDocumentByHash`: `where('hash', '==', hash).limit(1)` — the first
record (in store order) whose hash matches, or `none` when the snapshot is
empty. -/
def getDocumentByHash (registry : List DocumentMetadata) (hash : String) :
    Option DocumentMetadata :=
  registry.find? fun d => d.hash == hash

/-- `saveDocumentMetadata`: `collection.add` of the record with a fresh
`created_at` timestamp. -/
def saveDocumentMetadata (registry : List DocumentMetadata)
    (metadata : DocumentMetadata) (now : Nat) : List DocumentMetadata :=
  registry ++ [{ metadata with created_at := some now }]

/-- `saveChunks`: one batched insert of all chunks of a document (the stored
`created_at` field is elided; no claim mentions it). -/
def saveChunks (store : List (Chunk R)) (chunks : List (Chunk R)) :
    List (Chunk R) :=
  store ++ chunks

/-- The accumulator loop of `cosineSimilarity`: for `i` over the indices of
`vecA`, accumulate `dotProduct`, `normA`, `normB`.  When `vecB` has run out,
`vecB[i]` is `undefined`, so the `dotProduct` and `normB` accumulators become
NaN (and stay NaN); `normA` only ever sees entries of `vecA`.  The source
accumulates left-to-right; over a commutative field the grouping is
immaterial and NaN absorbs in either direction, so the right fold below
computes the same three values. -/
def cosAcc : List R → List R → JVal R × JVal R × JVal R
  | [], _ => (.num 0, .num 0, .num 0)
  | a :: as, [] =>
      let rest := cosAcc as ([] : List R)
      (.nan, jAdd (.num (a * a)) rest.2.1, .nan)
  | a :: as, b :: bs =>
      let rest := cosAcc as bs
      (jAdd (.num (a * b)) rest.1,
       jAdd (.num (a * a)) rest.2.1,
       jAdd (.num (b * b)) rest.2.2)

/-- `cosineSimilarity`: the accumulator loop, the zero-norm guard
`if (normA === 0 || normB === 0) return 0`, then
`dotProduct / (Math.sqrt(normA) * Math.sqrt(normB))`. -/
def cosineSimilarity (sqrt : R → R) (vecA vecB : List R) : JVal R :=
  let acc := cosAcc vecA vecB
  if jEqZero acc.2.1 || jEqZero acc.2.2 then .num 0
  else jDiv acc.1 (jMul (jSqrt sqrt acc.2.1) (jSqrt sqrt acc.2.2))

/-- The candidate-fetch step of `searchSimilarChunks` (source lines 97-108).
The guard `if (filename)` is a JavaScript truthiness check: it holds only
when the argument is present and non-empty.  In that case the equality
filter `where('metadata.filename', '==', filename)` is pushed to the store;
when the argument is absent — or is the empty string, which is falsy — the
whole collection is fetched and `console.warn` flags the global scan.  The
Boolean component records whether that warning fired. -/
def fetchCandidates (store : List (Chunk R)) (filename : Option String) :
    List (Chunk R) × Bool :=
  match filename with
  | some f =>
      if f = "" then (store, true)
      else (store.filter fun c => c.metadata.filename == f, false)
  | none => (store, true)

/-- The scoring step: pair every candidate with
`cosineSimilarity(queryEmbedding, chunk.embedding)`. -/
def scoreChunks (sqrt : R → R) (queryEmbedding : List R)
    (chunks : List (Chunk R)) : List (Chunk R × JVal R) :=
  chunks.map fun chunk => (chunk, cosineSimilarity sqrt queryEmbedding chunk.embedding)

/-- The sort comparator `(a, b) => b.score - a.score` as a Boolean
"may stay before" relation: descending by score (see `jleB` for the NaN
convention). -/
def scoredDesc (p q : Chunk R × JVal R) : Bool :=
  jleB q.2 p.2

/-- The in-memory ranking of `searchSimilarChunks`: score, stable-sort
descending, `slice(0, limit)`, project the chunks back out. -/
def rankChunks (sqrt : R → R) (queryEmbedding : List R) (limit : Nat)
    (chunks : List (Chunk R)) : List (Chunk R) :=
  ((((scoreChunks sqrt queryEmbedding chunks).mergeSort scoredDesc).take limit).map
    Prod.fst)

/-- `searchSimilarChunks` with the storage round-trip abstracted: `fetched` is
the outcome of `queryRef.get()`.  A storage fault takes the `catch` branch,
which logs and returns the empty list; a successful fetch is ranked in
memory. -/
def searchSimilarChunks (sqrt : R → R)
    (fetched : Except String (List (Chunk R))) (queryEmbedding : List R)
    (limit : Nat) : List (Chunk R) :=
  match fetched with
  | .error _ => []
  | .ok allChunks => rankChunks sqrt queryEmbedding limit allChunks

/-- `searchSimilarChunks` against an in-memory model of the chunk collection,
with the fetch succeeding: the candidate set is `fetchCandidates` applied to
the store. -/
def searchSimilarChunksStore (sqrt : R → R) (store : List (Chunk R))
    (queryEmbedding : List R) (limit : Nat) (filename : Option String) :
    List (Chunk R) :=
  searchSimilarChunks sqrt (.ok (fetchCandidates store filename).1)
    queryEmbedding limit

/-- `searchSimilarChunks` called without an explicit limit: the source
signature declares `limit: number = 3`, so such a call runs with limit 3. -/
def searchSimilarChunksNoLimit (sqrt : R → R)
    (fetched : Except String (List (Chunk R))) (queryEmbedding : List R) :
    List (Chunk R) :=
  searchSimilarChunks sqrt fetched queryEmbedding 3

/-- The two persistent collections the ingestion flow writes. -/
structure IngestState (R : Type) where
  registry : List DocumentMetadata
  chunkStore : List (Chunk R)
deriving DecidableEq

/-- Modelled from the spec: the check-then-insert ingestion sequence (the API
route that calls `getDocumentByHash`, `saveDocumentMetadata` and `saveChunks`
is not part of the retrieval core's source tree).  Per the spec, existence of
a record with a matching hash is the dedup signal: the core does not
re-ingest or re-chunk a document whose hash already exists; otherwise it
inserts the registry record and batch-inserts the chunks. -/
def ingestDocument (st : IngestState R) (metadata : DocumentMetadata)
    (chunks : List (Chunk R)) (now : Nat) : IngestState R :=
  match getDocumentByHash st.registry metadata.hash with
  | some _ => st
  | none =>
      { registry := saveDocumentMetadata st.registry metadata now,
        chunkStore := saveChunks st.chunkStore chunks }

/-- Stand-in square root over `ℚ` for executable witnesses; the structural
claims hold for every square-root function, so any choice will do. -/
def qSqrt : ℚ → ℚ := fun x => x

/-- Concrete metadata for witness corpora: a chunk of `x.pdf`. -/
def metaX : ChunkMetadata :=
  { filename := "x.pdf", persona := "legal", pageNumber := none }

/-- Concrete metadata for witness corpora: a chunk of `y.pdf`. -/
def metaY : ChunkMetadata :=
  { filename := "y.pdf", persona := "legal", pageNumber := none }

/-- Witness chunk of `x.pdf` whose embedding points along the first axis. -/
def chunkA : Chunk ℚ :=
  { id := some "A", text := "alpha", embedding := [9, 1], metadata := metaX }

/-- Witness chunk of `y.pdf`. -/
def chunkB : Chunk ℚ :=
  { id := some "B", text := "beta", embedding := [1, 0], metadata := metaY }

/-- Witness chunk of `x.pdf` whose embedding points along the second axis. -/
def chunkC : Chunk ℚ :=
  { id := some "C", text := "gamma", embedding := [1, 9], metadata := metaX }

/-- Witness chunk whose embedding is shorter than a two-dimensional query:
scoring it reads `vecB[1]` out of range. -/
def chunkShort : Chunk ℚ :=
  { id := some "S", text := "short", embedding := [1], metadata := metaX }

/-- Witness chunk whose embedding is empty (zero length, Euclidean norm 0). -/
def chunkEmptyEmb : Chunk ℚ :=
  { id := some "E", text := "empty", embedding := [], metadata := metaX }

/-- Witness registry record for an already-ingested document. -/
def docRec : DocumentMetadata :=
  { hash := "h1", filename := "x.pdf", persona := "legal", summary := none,
    created_at := some 0 }

/-- Witness ingest state: the registry already holds `docRec` and the chunk
store holds its single chunk. -/
def stRec : IngestState ℚ :=
  { registry := [docRec], chunkStore := [chunkA] }

/-- Adding NaN on the right yields NaN. -/
theorem jAdd_nan_right (x : JVal R) : jAdd x JVal.nan = JVal.nan := by
  cases x <;> rfl

/-- The comparator order `jleB` is transitive. -/
theorem jleB_trans : ∀ x y z : JVal R,
    jleB x y = true → jleB y z = true → jleB x z = true
  | .nan, _, _, _, _ => rfl
  | .num _, .nan, _, h1, _ => by simp [jleB] at h1
  | .num _, .num _, .nan, _, h2 => by simp [jleB] at h2
  | .num a, .num b, .num c, h1, h2 => by
      simp only [jleB, decide_eq_true_eq] at h1 h2 ⊢
      exact le_trans h1 h2

/-- The comparator order `jleB` is total. -/
theorem jleB_total : ∀ x y : JVal R, (jleB x y || jleB y x) = true
  | .nan, _ => by simp [jleB]
  | .num _, .nan => by simp [jleB]
  | .num a, .num b => by
      simp only [jleB, Bool.or_eq_true, decide_eq_true_eq]
      exact le_total a b

/-- The descending score comparator is transitive. -/
theorem scoredDesc_trans : ∀ a b c : Chunk R × JVal R,
    scoredDesc a b = true → scoredDesc b c = true → scoredDesc a c = true :=
  fun _ b _ h1 h2 => jleB_trans _ b.2 _ h2 h1

/-- The descending score comparator is total. -/
theorem scoredDesc_total : ∀ a b : Chunk R × JVal R,
    (scoredDesc a b || scoredDesc b a) = true :=
  fun a b => by
    have := jleB_total b.2 a.2
    simpa [scoredDesc, Bool.or_comm] using this

/-- The `normA` accumulator never sees an out-of-range read: it is always the
ordinary number `sumSq vecA`. -/
theorem cosAcc_normA (a : List R) :
    ∀ b : List R, (cosAcc a b).2.1 = JVal.num (sumSq a) := by
  induction a with
  | nil => intro b; rfl
  | cons x xs ih =>
      intro b
      cases b with
      | nil => simp [cosAcc, sumSq, ih [], jAdd]
      | cons y ys => simp [cosAcc, sumSq, ih ys, jAdd]

/-- When the query is at most as long as the candidate, no out-of-range read
occurs and the three accumulators are ordinary numbers: the truncated dot
product, the query's sum of squares, and the sum of squares of the
candidate's prefix of the query's length. -/
theorem cosAcc_eq_of_le (a : List R) : ∀ b : List R, a.length ≤ b.length →
    cosAcc a b =
      (JVal.num (dotP a b), JVal.num (sumSq a),
        JVal.num (sumSq (b.take a.length))) := by
  induction a with
  | nil => intro b h; simp [cosAcc, dotP, sumSq]
  | cons x xs ih =>
      intro b h
      cases b with
      | nil => simp at h
      | cons y ys =>
          have hle : xs.length ≤ ys.length := by simpa using h
          simp [cosAcc, dotP, sumSq, ih ys hle, jAdd]

/-- When the candidate is strictly shorter than the query, the loop reads
`vecB[i]` out of range, so the `dotProduct` and `normB` accumulators are
NaN. -/
theorem cosAcc_nan_of_lt (a : List R) : ∀ b : List R, b.length < a.length →
    (cosAcc a b).1 = JVal.nan ∧ (cosAcc a b).2.2 = JVal.nan := by
  induction a with
  | nil => intro b h; simp at h
  | cons x xs ih =>
      intro b h
      cases b with
      | nil => simp [cosAcc]
      | cons y ys =>
          have hlt : ys.length < xs.length := by simpa using h
          have hih := ih ys hlt
          simp [cosAcc, hih.1, hih.2, jAdd_nan_right]

/-- The dot product of a vector with itself is its sum of squares. -/
theorem dotP_self (v : List R) : dotP v v = sumSq v := by
  induction v with
  | nil => rfl
  | cons x xs ih => simp [dotP, sumSq, ih]

/-- A sum of squares is nonnegative. -/
theorem sumSq_nonneg (v : List R) : 0 ≤ sumSq v := by
  induction v with
  | nil => simp [sumSq]
  | cons x xs ih =>
      simp only [sumSq]
      exact add_nonneg (mul_self_nonneg x) ih

/-- A vector with a nonzero entry has a strictly positive sum of squares. -/
theorem sumSq_pos (v : List R) (h : ∃ x ∈ v, x ≠ 0) : 0 < sumSq v := by
  induction v with
  | nil => rcases h with ⟨x, hx, _⟩; simp at hx
  | cons y ys ih =>
      rcases h with ⟨x, hx, hxne⟩
      simp only [sumSq]
      rcases List.mem_cons.mp hx with rfl | hmem
      · exact add_pos_of_pos_of_nonneg (mul_self_pos.mpr hxne) (sumSq_nonneg ys)
      · exact add_pos_of_nonneg_of_pos (mul_self_nonneg y) (ih ⟨x, hmem, hxne⟩)

/-- Scoring preserves the number of candidates. -/
theorem scoreChunks_length (sqrt : R → R) (q : List R) (l : List (Chunk R)) :
    (scoreChunks sqrt q l).length = l.length := by
  simp [scoreChunks]

/-- Projecting the chunks back out of the scored pairs recovers the
candidates. -/
theorem map_fst_scoreChunks (sqrt : R → R) (q : List R) (l : List (Chunk R)) :
    (scoreChunks sqrt q l).map Prod.fst = l := by
  simp [scoreChunks, Function.comp_def]

/-- The ranking returns `min limit n` chunks out of `n` candidates. -/
theorem rankChunks_length (sqrt : R → R) (q : List R) (k : Nat)
    (l : List (Chunk R)) : (rankChunks sqrt q k l).length = min k l.length := by
  unfold rankChunks
  rw [List.length_map, List.length_take,
    (List.mergeSort_perm (scoreChunks sqrt q l) scoredDesc).length_eq,
    scoreChunks_length]

/-- Every ranked chunk is one of the candidates. -/
theorem mem_of_mem_rankChunks {sqrt : R → R} {q : List R} {k : Nat}
    {l : List (Chunk R)} {c : Chunk R} (hc : c ∈ rankChunks sqrt q k l) :
    c ∈ l := by
  unfold rankChunks at hc
  rcases List.mem_map.mp hc with ⟨p, hp, hpc⟩
  have hp2 : p ∈ (scoreChunks sqrt q l).mergeSort scoredDesc :=
    List.mem_of_mem_take hp
  have hp3 : p ∈ scoreChunks sqrt q l :=
    (List.mergeSort_perm (scoreChunks sqrt q l) scoredDesc).mem_iff.mp hp2
  rcases List.mem_map.mp hp3 with ⟨c0, hc0, hc0p⟩
  rw [← hpc, ← hc0p]
  exact hc0

/-- When at least as many chunks are requested as exist, the ranking returns
exactly the candidates, reordered. -/
theorem rankChunks_perm_of_le {sqrt : R → R} {q : List R} {k : Nat}
    {l : List (Chunk R)} (h : l.length ≤ k) :
    (rankChunks sqrt q k l).Perm l := by
  unfold rankChunks
  rw [List.take_of_length_le]
  · have hperm :=
      (List.mergeSort_perm (scoreChunks sqrt q l) scoredDesc).map Prod.fst
    rw [map_fst_scoreChunks] at hperm
    exact hperm
  · rw [(List.mergeSort_perm (scoreChunks sqrt q l) scoredDesc).length_eq,
      scoreChunks_length]
    exact h

/-- Ranking a single candidate returns exactly that candidate whenever at
least one chunk is requested. -/
theorem rankChunks_singleton (sqrt : R → R) (q : List R) (k : Nat)
    (hk : 1 ≤ k) (c : Chunk R) : rankChunks sqrt q k [c] = [c] := by
  have hperm : (rankChunks sqrt q k [c]).Perm [c] :=
    rankChunks_perm_of_le (by simpa using hk)
  exact List.perm_singleton.mp hperm

/-- When the query is at most as long as the candidate, the score is an
ordinary number (never NaN): either the zero-norm guard fires, or the
division of ordinary numbers is performed. -/
theorem cosineSimilarity_num_of_le (sqrt : R → R) (a b : List R)
    (hlen : a.length ≤ b.length) :
    ∃ r : R, cosineSimilarity sqrt a b = JVal.num r := by
  simp only [cosineSimilarity, cosAcc_eq_of_le a b hlen]
  by_cases h : (jEqZero (JVal.num (sumSq a))
      || jEqZero (JVal.num (sumSq (b.take a.length)))) = true
  · rw [if_pos h]
    exact ⟨0, rfl⟩
  · rw [if_neg h]
    exact ⟨_, rfl⟩

/-- If the computed `normA` is zero the guard fires and the score is 0. -/
theorem cosineSimilarity_guard_normA (sqrt : R → R) (a b : List R)
    (h : sumSq a = 0) : cosineSimilarity sqrt a b = JVal.num 0 := by
  simp [cosineSimilarity, cosAcc_normA a b, h, jEqZero]

/-- If the candidate is at least as long as the query and the computed
`normB` is zero the guard fires and the score is 0. -/
theorem cosineSimilarity_guard_normB (sqrt : R → R) (a b : List R)
    (hlen : a.length ≤ b.length) (h : sumSq (b.take a.length) = 0) :
    cosineSimilarity sqrt a b = JVal.num 0 := by
  simp [cosineSimilarity, cosAcc_eq_of_le a b hlen, h, jEqZero]

/-- A candidate strictly shorter than a query of nonzero computed norm is
scored NaN: the out-of-range reads poison `dotProduct` and `normB`, the
`=== 0` guard does not fire on NaN, and the division propagates NaN. -/
theorem cosineSimilarity_nan_of_short (sqrt : R → R) (a b : List R)
    (hlt : b.length < a.length) (h : sumSq a ≠ 0) :
    cosineSimilarity sqrt a b = JVal.nan := by
  have h1 := cosAcc_normA a b
  have h2 := (cosAcc_nan_of_lt a b hlt).2
  have h3 := (cosAcc_nan_of_lt a b hlt).1
  simp [cosineSimilarity, h1, h2, h3, jEqZero, h, jSqrt, jMul, jDiv]

/-- C3, counterexample: the second vector is empty, so its Euclidean norm is
exactly zero, yet `cosineSimilarity` does not return 0: the loop runs over
the first vector's indices, the read `vecB[0]` is out of range, the computed
`normB` is NaN, NaN fails the `=== 0` guard, and the result is NaN. -/
theorem cosineSimilarity_zero_norm_nan_cex :
    sumSq ([] : List ℚ) = 0 ∧
      cosineSimilarity qSqrt [(1 : ℚ)] [] = JVal.nan := by
  constructor
  · rfl
  · exact cosineSimilarity_nan_of_short qSqrt [1] [] (by decide)
      (by norm_num [sumSq])

/-- C3, amended: if the computed `normA` (the query's sum of squares) is
zero, or the candidate is at least as long as the query and the computed
`normB` (the sum of squares of the candidate's prefix of the query's length)
is zero, `cosineSimilarity` returns exactly 0 — no NaN and no division.  The
original claim fails when the candidate is strictly shorter than the query:
its computed norm is then NaN rather than zero (see the counterexample). -/
theorem cosineSimilarity_computed_norm_zero (sqrt : R → R) (a b : List R)
    (h : sumSq a = 0 ∨ (a.length ≤ b.length ∧ sumSq (b.take a.length) = 0)) :
    cosineSimilarity sqrt a b = JVal.num 0 := by
  rcases h with h | ⟨hlen, h⟩
  · exact cosineSimilarity_guard_normA sqrt a b h
  · exact cosineSimilarity_guard_normB sqrt a b hlen h

/-- C3, witness: a query of nonzero norm against an all-zero candidate of
equal or greater length scores exactly 0. -/
theorem cosineSimilarity_computed_norm_zero_witness :
    ([(1 : ℚ)].length ≤ ([0, 5] : List ℚ).length ∧
        sumSq (([0, 5] : List ℚ).take [(1 : ℚ)].length) = 0) ∧
      cosineSimilarity qSqrt [(1 : ℚ)] [0, 5] = JVal.num 0 :=
  ⟨⟨by decide, by norm_num [sumSq]⟩,
    cosineSimilarity_computed_norm_zero qSqrt [1] [0, 5]
      (Or.inr ⟨by decide, by norm_num [sumSq]⟩)⟩

/-- C9: over the reals with `Real.sqrt`, the cosine similarity of a non-zero
vector with itself is exactly 1. -/
theorem cosineSimilarity_self_eq_one (v : List ℝ) (h : ∃ x ∈ v, x ≠ 0) :
    cosineSimilarity Real.sqrt v v = JVal.num 1 := by
  have hpos : 0 < sumSq v := sumSq_pos v h
  have hacc := cosAcc_eq_of_le v v le_rfl
  rw [List.take_length] at hacc
  simp only [cosineSimilarity, hacc, jEqZero, jDiv, jMul, jSqrt, dotP_self]
  rw [if_neg]
  · rw [Real.mul_self_sqrt hpos.le, div_self hpos.ne']
  · simp [hpos.ne']

/-- C9, witness: the cosine similarity of `[1, 2]` with itself is 1. -/
theorem cosineSimilarity_self_eq_one_witness :
    (∃ x ∈ [(1 : ℝ), 2], x ≠ 0) ∧
      cosineSimilarity Real.sqrt [1, 2] [1, 2] = JVal.num 1 :=
  ⟨⟨1, by simp, one_ne_zero⟩,
    cosineSimilarity_self_eq_one [1, 2] ⟨1, by simp, one_ne_zero⟩⟩

/-- C4, counterexample: with the storage fetch succeeding and a single
candidate whose embedding dimensionality mismatches the query's, the search
does not return the empty sequence: the chunk is scored NaN and still
returned. -/
theorem searchSimilarChunks_dim_mismatch_nonempty_cex :
    [(1 : ℚ), 0].length ≠ chunkShort.embedding.length ∧
      searchSimilarChunks qSqrt (Except.ok [chunkShort]) [1, 0] 3 =
        [chunkShort] := by
  constructor
  · decide
  · exact rankChunks_singleton qSqrt [1, 0] 3 (by decide) chunkShort

/-- C4, amended: a storage failure in candidate retrieval makes the search
return the empty sequence without raising past its boundary; an
embedding-dimensionality mismatch does not — mismatched pairs are still
scored (as NaN when the candidate is shorter) and the search returns
`min limit n` chunks as on any other input. -/
theorem searchSimilarChunks_storage_error_empty (sqrt : R → R) (e : String)
    (cs : List (Chunk R)) (q : List R) (k : Nat) :
    searchSimilarChunks sqrt (Except.error e) q k = [] ∧
      (searchSimilarChunks sqrt (Except.ok cs) q k).length = min k cs.length :=
  ⟨rfl, rankChunks_length sqrt q k cs⟩

/-- C5, counterexample: a zero-length candidate embedding against the
non-zero query `[1]` is scored NaN — not 0 — and is not skipped in the
ranking: the search still returns it. -/
theorem cosineSimilarity_empty_candidate_nan_cex :
    chunkEmptyEmb.embedding.length = 0 ∧
      cosineSimilarity qSqrt [(1 : ℚ)] chunkEmptyEmb.embedding = JVal.nan ∧
      searchSimilarChunks qSqrt (Except.ok [chunkEmptyEmb]) [1] 1 =
        [chunkEmptyEmb] := by
  refine ⟨rfl,
    cosineSimilarity_nan_of_short qSqrt [1] chunkEmptyEmb.embedding (by decide)
      (by norm_num [sumSq]),
    rankChunks_singleton qSqrt [1] 1 le_rfl chunkEmptyEmb⟩

/-- C5, amended: malformed pairs are handled locally and never abort the
search, but the local treatment is not uniformly "score zero and skip": a
pair whose computed `normA` is zero is scored exactly 0; a candidate strictly
shorter than a query of nonzero norm is scored NaN; in both cases the chunk
stays in the ranking, and the search still returns `min limit n` of its `n`
candidates. -/
theorem cosineSimilarity_local_malformed_handling (sqrt : R → R) (q b : List R)
    (cs : List (Chunk R)) (k : Nat) :
    (sumSq q = 0 → cosineSimilarity sqrt q b = JVal.num 0) ∧
      (b.length < q.length → sumSq q ≠ 0 →
        cosineSimilarity sqrt q b = JVal.nan) ∧
      (searchSimilarChunks sqrt (Except.ok cs) q k).length = min k cs.length :=
  ⟨fun h => cosineSimilarity_guard_normA sqrt q b h,
    fun hlt h => cosineSimilarity_nan_of_short sqrt q b hlt h,
    rankChunks_length sqrt q k cs⟩

/-- C5, witness: a zero-norm query scores 0 against any candidate; an empty
candidate against the query `[1]` scores NaN. -/
theorem cosineSimilarity_local_malformed_handling_witness :
    (sumSq [(0 : ℚ)] = 0 ∧
        cosineSimilarity qSqrt [(0 : ℚ)] [7] = JVal.num 0) ∧
      (([] : List ℚ).length < [(1 : ℚ)].length ∧ sumSq [(1 : ℚ)] ≠ 0) ∧
      cosineSimilarity qSqrt [(1 : ℚ)] [] = JVal.nan :=
  ⟨⟨by norm_num [sumSq],
      (cosineSimilarity_local_malformed_handling qSqrt [0] [7] [] 0).1
        (by norm_num [sumSq])⟩,
    ⟨by decide, by norm_num [sumSq]⟩,
    (cosineSimilarity_local_malformed_handling qSqrt [1] [] [] 0).2.1
      (by decide) (by norm_num [sumSq])⟩

/-- C8: with no filename the fetch step returns the entire corpus as the
candidate set (no filtering) and the global-scan warning fires; the search is
then exactly the in-memory ranking of the whole store. -/
theorem searchSimilarChunks_global_scan_warning (sqrt : R → R)
    (store : List (Chunk R)) (q : List R) (k : Nat) :
    (fetchCandidates store none).1 = store ∧
      (fetchCandidates store none).2 = true ∧
      searchSimilarChunksStore sqrt store q k none = rankChunks sqrt q k store :=
  ⟨rfl, rfl, rfl⟩

/-- C10: a call without an explicit limit runs with the declared default of
3, so it returns at most 3 chunks whatever the fetch outcome. -/
theorem searchSimilarChunks_default_limit_three (sqrt : R → R)
    (fetched : Except String (List (Chunk R))) (q : List R) :
    (searchSimilarChunksNoLimit sqrt fetched q).length ≤ 3 := by
  cases fetched with
  | error e => simp [searchSimilarChunksNoLimit, searchSimilarChunks]
  | ok cs =>
      show (rankChunks sqrt q 3 cs).length ≤ 3
      rw [rankChunks_length]
      exact min_le_left _ _

/-- C1, counterexample: the source guards the filter with the truthiness
check `if (filename)`, and the empty string is falsy, so a search scoped to
the filename `""` takes the global-scan branch and can return a chunk of a
different filename: here it returns the `y.pdf` chunk, whose filename is not
`""`. -/
theorem searchSimilarChunks_empty_filename_leak_cex :
    chunkB ∈ searchSimilarChunksStore qSqrt [chunkB] [1, 0] 1 (some "") ∧
      chunkB.metadata.filename ≠ "" := by
  constructor
  · have hout : searchSimilarChunksStore qSqrt [chunkB] [1, 0] 1 (some "")
        = [chunkB] := by
      have hfetch : (fetchCandidates [chunkB] (some "")).1 = [chunkB] := by
        decide
      show rankChunks qSqrt [1, 0] 1 (fetchCandidates [chunkB] (some "")).1
        = [chunkB]
      rw [hfetch]
      exact rankChunks_singleton qSqrt [1, 0] 1 le_rfl chunkB
    rw [hout]
    exact List.mem_singleton.mpr rfl
  · decide

/-- C1, amended: a search scoped to a non-empty filename returns only chunks
whose metadata filename equals that filename, regardless of their similarity
scores: for a truthy (non-empty) filename the equality filter is applied
before scoring, and the ranking only reorders and truncates the filtered
candidates.  (The empty string is falsy in the source's `if (filename)`
guard, so scoping to `""` falls back to the global scan — see the
counterexample.) -/
theorem searchSimilarChunks_scoped_no_cross_file (sqrt : R → R)
    (store : List (Chunk R)) (q : List R) (k : Nat) (f : String) (c : Chunk R)
    (hf : f ≠ "")
    (hc : c ∈ searchSimilarChunksStore sqrt store q k (some f)) :
    c.metadata.filename = f := by
  have hfetch : (fetchCandidates store (some f)).1
      = store.filter fun d => d.metadata.filename == f := by
    simp [fetchCandidates, hf]
  have hc1 : c ∈ rankChunks sqrt q k
      (store.filter fun d => d.metadata.filename == f) := by
    rw [← hfetch]
    exact hc
  have hc2 := mem_of_mem_rankChunks hc1
  exact eq_of_beq (List.mem_filter.mp hc2).2

/-- C1, witness: in a singleton corpus holding one `x.pdf` chunk, the search
scoped to the non-empty filename `x.pdf` returns that chunk and its filename
is `x.pdf`. -/
theorem searchSimilarChunks_scoped_no_cross_file_witness :
    ("x.pdf" ≠ "") ∧
      chunkA ∈ searchSimilarChunksStore qSqrt [chunkA] [1, 0] 1
        (some "x.pdf") ∧
      chunkA.metadata.filename = "x.pdf" := by
  have hmem : chunkA ∈ searchSimilarChunksStore qSqrt [chunkA] [1, 0] 1
      (some "x.pdf") := by
    have hout : searchSimilarChunksStore qSqrt [chunkA] [1, 0] 1 (some "x.pdf")
        = [chunkA] := by
      have hfetch : (fetchCandidates [chunkA] (some "x.pdf")).1 = [chunkA] := by
        decide
      show rankChunks qSqrt [1, 0] 1 (fetchCandidates [chunkA] (some "x.pdf")).1
        = [chunkA]
      rw [hfetch]
      exact rankChunks_singleton qSqrt [1, 0] 1 le_rfl chunkA
    rw [hout]
    exact List.mem_singleton.mpr rfl
  exact ⟨by decide, hmem,
    searchSimilarChunks_scoped_no_cross_file qSqrt [chunkA] [1, 0] 1 "x.pdf"
      chunkA (by decide) hmem⟩

/-- C2: when the registry already holds exactly one record carrying the
incoming document's content hash, the modelled check-then-insert ingestion is
a no-op: the state is unchanged, so the registry still holds exactly one
record for that hash and the chunk store gains no duplicate chunk set. -/
theorem ingest_existing_hash_no_duplicate (st : IngestState R)
    (metadata : DocumentMetadata) (chunks : List (Chunk R)) (now : Nat)
    (h : (st.registry.filter fun d => d.hash == metadata.hash).length = 1) :
    ingestDocument st metadata chunks now = st ∧
      ((ingestDocument st metadata chunks now).registry.filter
          fun d => d.hash == metadata.hash).length = 1 ∧
      (ingestDocument st metadata chunks now).chunkStore = st.chunkStore := by
  have hne : (st.registry.filter fun d => d.hash == metadata.hash) ≠ [] := by
    intro hnil
    rw [hnil] at h
    simp at h
  obtain ⟨d, hd⟩ := List.exists_mem_of_ne_nil _ hne
  have hd2 := List.mem_filter.mp hd
  have hfind : (getDocumentByHash st.registry metadata.hash).isSome := by
    unfold getDocumentByHash
    rw [List.find?_isSome]
    exact ⟨d, hd2.1, hd2.2⟩
  obtain ⟨r, hr⟩ := Option.isSome_iff_exists.mp hfind
  have heq : ingestDocument st metadata chunks now = st := by
    unfold ingestDocument
    rw [hr]
  refine ⟨heq, ?_, ?_⟩
  · rw [heq]
    exact h
  · rw [heq]

/-- C2, witness: re-ingesting a document whose hash is already registered
once leaves the ingest state unchanged. -/
theorem ingest_existing_hash_no_duplicate_witness :
    (stRec.registry.filter fun d => d.hash == docRec.hash).length = 1 ∧
      ingestDocument stRec docRec [chunkB] 5 = stRec :=
  ⟨by decide,
    (ingest_existing_hash_no_duplicate stRec docRec [chunkB] 5 (by decide)).1⟩

/-- C6: the search returns at most `topK` chunks; when the scoped candidate
set has fewer than `topK` chunks it returns exactly all of them (as a
permutation of the candidate set), with no padding and no failure. -/
theorem searchSimilarChunks_topK_bound (sqrt : R → R) (store : List (Chunk R))
    (q : List R) (k : Nat) (f : Option String) :
    (searchSimilarChunksStore sqrt store q k f).length ≤ k ∧
      ((fetchCandidates store f).1.length < k →
        (searchSimilarChunksStore sqrt store q k f).Perm
          (fetchCandidates store f).1) := by
  constructor
  · have h : (searchSimilarChunksStore sqrt store q k f).length
        = min k (fetchCandidates store f).1.length :=
      rankChunks_length sqrt q k (fetchCandidates store f).1
    rw [h]
    exact min_le_left _ _
  · intro hlt
    exact rankChunks_perm_of_le (le_of_lt hlt)

/-- C6, witness: two `x.pdf` chunks with `topK = 5` come back in full, with
no padding. -/
theorem searchSimilarChunks_topK_bound_witness :
    (fetchCandidates [chunkA, chunkB, chunkC] (some "x.pdf")).1.length < 5 ∧
      (searchSimilarChunksStore qSqrt [chunkA, chunkB, chunkC] [1, 0] 5
          (some "x.pdf")).Perm
        (fetchCandidates [chunkA, chunkB, chunkC] (some "x.pdf")).1 :=
  ⟨by decide,
    (searchSimilarChunks_topK_bound qSqrt [chunkA, chunkB, chunkC] [1, 0] 5
        (some "x.pdf")).2 (by decide)⟩

/-- Every element of the sorted scored list is a candidate paired with its
own cosine-similarity score. -/
theorem mem_mergeSort_scoreChunks {sqrt : R → R} {q : List R}
    {l : List (Chunk R)} {p : Chunk R × JVal R}
    (hp : p ∈ (scoreChunks sqrt q l).mergeSort scoredDesc) :
    p.1 ∈ l ∧ p.2 = cosineSimilarity sqrt q p.1.embedding := by
  have hp2 : p ∈ scoreChunks sqrt q l :=
    (List.mergeSort_perm (scoreChunks sqrt q l) scoredDesc).mem_iff.mp hp
  rcases List.mem_map.mp hp2 with ⟨c, hcl, hce⟩
  obtain rfl := hce.symm
  exact ⟨hcl, rfl⟩

/-- C7, counterexample: with one well-formed candidate and one candidate
shorter than the query (scored NaN), the two returned chunks are not ordered
by descending score — a NaN score compares false against everything, so no
order of the two elements is descending. -/
theorem searchSimilarChunks_nan_unsorted_cex :
    ¬ (searchSimilarChunks qSqrt (Except.ok [chunkA, chunkShort]) [1, 0]
        2).Sorted
      (fun c d => jNumLe (cosineSimilarity qSqrt [1, 0] d.embedding)
        (cosineSimilarity qSqrt [1, 0] c.embedding)) := by
  intro hsort
  have hperm : (searchSimilarChunks qSqrt (Except.ok [chunkA, chunkShort])
      [1, 0] 2).Perm [chunkA, chunkShort] :=
    rankChunks_perm_of_le (by decide)
  have hSnan : cosineSimilarity qSqrt [1, 0] chunkShort.embedding
      = JVal.nan :=
    cosineSimilarity_nan_of_short qSqrt [1, 0] chunkShort.embedding (by decide)
      (by norm_num [sumSq])
  obtain ⟨rA, hAnum⟩ :=
    cosineSimilarity_num_of_le qSqrt [1, 0] chunkA.embedding (by decide)
  obtain ⟨c, d, hcd⟩ : ∃ c d, searchSimilarChunks qSqrt
      (Except.ok [chunkA, chunkShort]) [1, 0] 2 = [c, d] := by
    have hlen := hperm.length_eq
    cases hout : searchSimilarChunks qSqrt (Except.ok [chunkA, chunkShort])
        [1, 0] 2 with
    | nil => rw [hout] at hlen; simp at hlen
    | cons c t =>
        cases t with
        | nil => rw [hout] at hlen; simp at hlen
        | cons d t2 =>
            cases t2 with
            | nil => exact ⟨c, d, rfl⟩
            | cons e t3 => rw [hout] at hlen; simp at hlen
  rw [hcd] at hsort hperm
  have hrel : jNumLe (cosineSimilarity qSqrt [1, 0] d.embedding)
      (cosineSimilarity qSqrt [1, 0] c.embedding) := by
    have := List.sorted_cons.mp hsort
    exact this.1 d (List.mem_singleton.mpr rfl)
  have hcmem : c ∈ [chunkA, chunkShort] := hperm.mem_iff.mp (by simp)
  have hdmem : d ∈ [chunkA, chunkShort] := hperm.mem_iff.mp (by simp)
  have hnodup : ([c, d] : List (Chunk ℚ)).Nodup :=
    hperm.nodup_iff.mpr (by decide)
  have hne : c ≠ d := by
    intro hcontra
    rw [hcontra] at hnodup
    simp at hnodup
  rcases List.mem_cons.mp hcmem with rfl | hc2
  · rcases List.mem_cons.mp hdmem with hd1 | hd2
    · exact absurd hd1.symm hne
    · have hd3 : d = chunkShort := List.mem_singleton.mp hd2
      rw [hd3, hSnan] at hrel
      exact hrel
  · have hc3 : c = chunkShort := List.mem_singleton.mp hc2
    rcases List.mem_cons.mp hdmem with rfl | hd2
    · rw [hc3, hSnan, hAnum] at hrel
      exact hrel
    · have hd3 : d = chunkShort := List.mem_singleton.mp hd2
      exact hne (hc3.trans hd3.symm)

/-- C7, amended: provided every scoped candidate's computed score is an
ordinary number (which holds under the spec's fixed-dimensionality operating
assumption; a NaN score from a candidate shorter than the query breaks the
order, see the counterexample), the returned sequence is ordered by
descending cosine-similarity score, no omitted candidate scores higher than
any returned chunk, and the search is a pure function of its input, so
repeated calls on the same input return the same ordering. -/
theorem searchSimilarChunks_sorted_descending (sqrt : R → R)
    (store : List (Chunk R)) (q : List R) (k : Nat) (f : Option String)
    (hnum : ∀ c ∈ (fetchCandidates store f).1,
      ∃ r : R, cosineSimilarity sqrt q c.embedding = JVal.num r) :
    (searchSimilarChunksStore sqrt store q k f).Sorted
        (fun c d => jNumLe (cosineSimilarity sqrt q d.embedding)
          (cosineSimilarity sqrt q c.embedding)) ∧
      (∀ d ∈ (fetchCandidates store f).1,
        d ∉ searchSimilarChunksStore sqrt store q k f →
          ∀ c ∈ searchSimilarChunksStore sqrt store q k f,
            jNumLe (cosineSimilarity sqrt q d.embedding)
              (cosineSimilarity sqrt q c.embedding)) ∧
      searchSimilarChunksStore sqrt store q k f
        = searchSimilarChunksStore sqrt store q k f := by
  have hpair : ((scoreChunks sqrt q (fetchCandidates store f).1).mergeSort
      scoredDesc).Pairwise (fun p p' => scoredDesc p p' = true) :=
    List.sorted_mergeSort scoredDesc_trans scoredDesc_total _
  have hdesc : ∀ p p' : Chunk R × JVal R,
      p ∈ (scoreChunks sqrt q (fetchCandidates store f).1).mergeSort
        scoredDesc →
      p' ∈ (scoreChunks sqrt q (fetchCandidates store f).1).mergeSort
        scoredDesc →
      scoredDesc p p' = true → jNumLe p'.2 p.2 := by
    intro p p' hp hp' hle
    obtain ⟨hpc, hps⟩ := mem_mergeSort_scoreChunks hp
    obtain ⟨hpc', hps'⟩ := mem_mergeSort_scoreChunks hp'
    obtain ⟨rp, hrp⟩ := hnum p.1 hpc
    obtain ⟨rq, hrq⟩ := hnum p'.1 hpc'
    simp only [scoredDesc] at hle
    rw [hps, hrp, hps', hrq] at hle
    rw [hps, hrp, hps', hrq]
    simp only [jleB, decide_eq_true_eq] at hle
    simpa [jNumLe] using hle
  refine ⟨?_, ?_, rfl⟩
  · have htake : (((scoreChunks sqrt q (fetchCandidates store f).1).mergeSort
        scoredDesc).take k).Pairwise (fun p p' => scoredDesc p p' = true) :=
      hpair.sublist (List.take_sublist _ _)
    have htake2 : (((scoreChunks sqrt q
        (fetchCandidates store f).1).mergeSort scoredDesc).take k).Pairwise
        (fun p p' => jNumLe (cosineSimilarity sqrt q p'.1.embedding)
          (cosineSimilarity sqrt q p.1.embedding)) := by
      refine htake.imp_of_mem ?_
      intro p p' hpm hpm' hr
      have hp := List.mem_of_mem_take hpm
      have hp' := List.mem_of_mem_take hpm'
      have h := hdesc p p' hp hp' hr
      rw [(mem_mergeSort_scoreChunks hp).2,
        (mem_mergeSort_scoreChunks hp').2] at h
      exact h
    exact List.pairwise_map.mpr htake2
  · intro d hd hdnot c hc
    have hdp : (d, cosineSimilarity sqrt q d.embedding) ∈
        (scoreChunks sqrt q (fetchCandidates store f).1).mergeSort
          scoredDesc :=
      (List.mergeSort_perm _ scoredDesc).mem_iff.mpr
        (List.mem_map.mpr ⟨d, hd, rfl⟩)
    have hpair2 : (((scoreChunks sqrt q (fetchCandidates store f).1).mergeSort
        scoredDesc).take k ++ ((scoreChunks sqrt q
        (fetchCandidates store f).1).mergeSort scoredDesc).drop k).Pairwise
        (fun p p' => scoredDesc p p' = true) := by
      rw [List.take_append_drop]
      exact hpair
    have hsplit := List.pairwise_append.mp hpair2
    have hdp3 : (d, cosineSimilarity sqrt q d.embedding) ∈
        ((scoreChunks sqrt q (fetchCandidates store f).1).mergeSort
          scoredDesc).take k ++ ((scoreChunks sqrt q
          (fetchCandidates store f).1).mergeSort scoredDesc).drop k := by
      rw [List.take_append_drop]
      exact hdp
    have hdp2 : (d, cosineSimilarity sqrt q d.embedding) ∈
        ((scoreChunks sqrt q (fetchCandidates store f).1).mergeSort
          scoredDesc).drop k := by
      rcases List.mem_append.mp hdp3 with hin | hin
      · exact absurd (List.mem_map.mpr ⟨_, hin, rfl⟩) hdnot
      · exact hin
    rcases List.mem_map.mp hc with ⟨p, hpm, hpc⟩
    have hrel := hsplit.2.2 p hpm _ hdp2
    have hp := List.mem_of_mem_take hpm
    have h := hdesc p _ hp (List.mem_of_mem_drop hdp2) hrel
    rw [(mem_mergeSort_scoreChunks hp).2, hpc] at h
    exact h

/-- C7, witness: a two-chunk `x.pdf` corpus with well-formed embeddings is
returned in descending-score order. -/
theorem searchSimilarChunks_sorted_descending_witness :
    (∀ c ∈ (fetchCandidates [chunkA, chunkC] (some "x.pdf")).1,
      ∃ r : ℚ, cosineSimilarity qSqrt [1, 0] c.embedding = JVal.num r) ∧
      (searchSimilarChunksStore qSqrt [chunkA, chunkC] [1, 0] 2
          (some "x.pdf")).Sorted
        (fun c d => jNumLe (cosineSimilarity qSqrt [1, 0] d.embedding)
          (cosineSimilarity qSqrt [1, 0] c.embedding)) := by
  have hnum : ∀ c ∈ (fetchCandidates [chunkA, chunkC] (some "x.pdf")).1,
      ∃ r : ℚ, cosineSimilarity qSqrt [1, 0] c.embedding = JVal.num r := by
    have hfetch : (fetchCandidates [chunkA, chunkC] (some "x.pdf")).1
        = [chunkA, chunkC] := by decide
    intro c hc
    rw [hfetch] at hc
    rcases List.mem_cons.mp hc with rfl | hc2
    · exact cosineSimilarity_num_of_le qSqrt [1, 0] chunkA.embedding (by decide)
    · rcases List.mem_cons.mp hc2 with rfl | hc3
      · exact cosineSimilarity_num_of_le qSqrt [1, 0] chunkC.embedding
          (by decide)
      · simp at hc3
  exact ⟨hnum,
    (searchSimilarChunks_sorted_descending qSqrt [chunkA, chunkC] [1, 0] 2
        (some "x.pdf") hnum).1⟩

end VoiceDoc
